import Mathlib

/-!
Verification of the high-school name standardization pipeline
(`scripts/normalize_high_schools.py` and `scripts/build_hs_mapping.py`).

The Python source is shallowly embedded below.  Strings are modelled as
`String`/`List Char`; the regular expressions of the source are unfolded
into explicit, executable character-list functions (each definition's
comment names the regex it implements).  `pandas` missing values (NaN)
for the `state` column are modelled with `Option String` (`none` = NaN),
because `DataFrame.groupby` silently drops rows whose group key is NaN.
Python's `str.upper` and the regex classes `\s` and `\w` are modelled on
their ASCII fragment (all data relevant to the properties below is ASCII).
-/

/-- The apostrophe character, written via its code point. -/
def apos : Char := Char.ofNat 39

/-- ASCII fragment of Python's whitespace (`\s`, `str.strip`):
space, tab, newline, carriage return, vertical tab, form feed. -/
def isWs (c : Char) : Bool :=
  c == ' ' || c == Char.ofNat 9 || c == Char.ofNat 10 || c == Char.ofNat 13 ||
  c == Char.ofNat 11 || c == Char.ofNat 12

/-- ASCII fragment of the regex word class `\w`, used for `\b` boundaries. -/
def isWordChar (c : Char) : Bool :=
  c.isAlpha || c.isDigit || c == Char.ofNat 95

/-- Drop leading whitespace (left half of Python's `str.strip`). -/
def trimStartWs (l : List Char) : List Char := List.dropWhile isWs l

/-- Drop trailing whitespace (right half of Python's `str.strip`). -/
def trimEndWs : List Char → List Char
  | [] => []
  | c :: rest =>
    match trimEndWs rest with
    | [] => if isWs c then [] else [c]
    | r => c :: r

/-- Python's `str.strip()`: drop whitespace at both ends. -/
def pyStrip (l : List Char) : List Char := trimEndWs (trimStartWs l)

/-- A token of an end-anchored suffix pattern, consumed over the REVERSED
string: `ws` is `\s+` (greedy), `lit` is a literal (stored reversed). -/
inductive Tok where
  | ws : Tok
  | lit : List Char → Tok

/-- Consume a reversed literal case-insensitively (the suffix regexes carry
`re.IGNORECASE`); returns the rest of the reversed string on success. -/
def dropLitCI : List Char → List Char → Option (List Char)
  | [], l => some l
  | _ :: _, [] => none
  | p :: ps, c :: cs => if Char.toUpper c == p then dropLitCI ps cs else none

/-- Match a token list against a reversed string; `Tok.ws` requires at least
one whitespace char and then greedily consumes the whole run (this is what
the leftmost match of an end-anchored `\s+…$` pattern consumes). -/
def matchToksRev : List Tok → List Char → Option (List Char)
  | [], l => some l
  | Tok.ws :: ts, l =>
    match l with
    | [] => none
    | c :: rest => if isWs c then matchToksRev ts (List.dropWhile isWs rest) else none
  | Tok.lit p :: ts, l =>
    match dropLitCI p l with
    | some l2 => matchToksRev ts l2
    | none => none

/-- One `re.sub(pattern, '', s)` for an end-anchored suffix pattern: if the
pattern matches a tail of `l`, that tail is removed, else `l` is unchanged. -/
def stripOneSuffix (toks : List Tok) (l : List Char) : List Char :=
  match matchToksRev toks l.reverse with
  | some rem => rem.reverse
  | none => l

/-- `r'\s+HIGH\s+SCHOOL$'` as reversed tokens. -/
def patHighSchool : List Tok :=
  [Tok.lit ['L', 'O', 'O', 'H', 'C', 'S'], Tok.ws, Tok.lit ['H', 'G', 'I', 'H'], Tok.ws]

/-- `r'\s+H\.S\.$'` as reversed tokens. -/
def patHdotSdot : List Tok := [Tok.lit ['.', 'S', '.', 'H'], Tok.ws]

/-- `r'\s+HS$'` as reversed tokens. -/
def patHS : List Tok := [Tok.lit ['S', 'H'], Tok.ws]

/-- `r'\s+H\.S$'` as reversed tokens. -/
def patHdotS : List Tok := [Tok.lit ['S', '.', 'H'], Tok.ws]

/-- The `suffixes` list of `normalize_hs_name`, in source order. -/
def suffixPatternList : List (List Tok) := [patHighSchool, patHdotSdot, patHS, patHdotS]

/-- The suffix-stripping loop of `normalize_hs_name`: each of the four
substitutions is applied in turn to the result of the previous one. -/
def stripSuffixes (l : List Char) : List Char :=
  suffixPatternList.foldl (fun acc p => stripOneSuffix p acc) l

/-- The `\s+` tail of `r'\bST\.?\s+'`: at least one whitespace character,
then the rest of the run, consumed greedily. -/
def stWs : List Char → Option (List Char)
  | [] => none
  | c :: r3 => if isWs c then some (List.dropWhile isWs r3) else none

/-- The `\.?\s+` tail of `r'\bST\.?\s+'`: an optional `'.'` and then at
least one whitespace character. -/
def stDotOpt : List Char → Option (List Char)
  | [] => none
  | d :: r2 => if d == '.' then stWs r2 else stWs (d :: r2)

/-- After an initial `'S'` with a `\b` before it, try to consume the rest of
`r'\bST\.?\s+'`: a `'T'`, an optional `'.'`, then at least one whitespace
char.  Returns the remainder on success. -/
def stTry : List Char → Option (List Char)
  | [] => none
  | c :: rest => if c == 'T' then stDotOpt rest else none

/-- Fuel-driven scan implementing `re.sub(r'\bST\.?\s+', 'SAINT ', s)`:
`prev` records whether the previous character of the original string was a
word character (for the `\b` boundary); on a match, `SAINT ` is emitted and
scanning resumes after the consumed whitespace run. -/
def saintSubFuel : Nat → Bool → List Char → List Char
  | 0, _, l => l
  | _ + 1, _, [] => []
  | n + 1, prev, c :: rest =>
    if !prev && c == 'S' then
      match stTry rest with
      | some rest2 =>
        'S' :: 'A' :: 'I' :: 'N' :: 'T' :: ' ' :: saintSubFuel n false rest2
      | none => c :: saintSubFuel n (isWordChar c) rest
    else c :: saintSubFuel n (isWordChar c) rest

/-- `re.sub(r'\bST\.?\s+', 'SAINT ', s)` (the St./Saint standardization). -/
def saintSub (l : List Char) : List Char := saintSubFuel l.length false l

/-- Characters kept by `re.sub(r"[.,']", '', s)`. -/
def keepPunct (c : Char) : Bool := !(c == '.' || c == ',' || c == apos)

/-- `re.sub(r"[.,']", '', s)`: remove periods, commas and apostrophes. -/
def removePunct (l : List Char) : List Char := l.filter keepPunct

/-- `[^)]*\)` anchored at the end of the list. -/
def closeRun : List Char → Bool
  | [] => false
  | [c] => c == ')'
  | c :: rest => c != ')' && closeRun rest

/-- `[^)]+\)` anchored at the end of the list (the inside of the
parenthetical pattern after its opening `'('`). -/
def parenInner : List Char → Bool
  | [] => false
  | c :: rest => c != ')' && closeRun rest

/-- Does `r'\s*\([^)]+\)$'` match the whole remainder starting here? -/
def parenHere (l : List Char) : Bool :=
  match List.dropWhile isWs l with
  | '(' :: r2 => parenInner r2
  | _ => false

/-- `re.sub(r'\s*\([^)]+\)$', '', s)`: drop a trailing parenthetical note
(leftmost match wins, so the scan cuts at the first position from which the
anchored pattern matches). -/
def parenCut : List Char → List Char
  | [] => []
  | c :: rest => if parenHere (c :: rest) then [] else c :: parenCut rest

/-- `re.sub(r'\s+', ' ', s)`: collapse every whitespace run to one space.
The flag records whether we are inside a run already emitted as `' '`. -/
def collapseWsAux : Bool → List Char → List Char
  | _, [] => []
  | inRun, c :: rest =>
    if isWs c then
      if inRun then collapseWsAux true rest
      else ' ' :: collapseWsAux true rest
    else c :: collapseWsAux false rest

/-- Step 1 of `normalize_hs_name`: `str(name).upper().strip()` (ASCII). -/
def upperStripStr (s : String) : String := String.mk (pyStrip (s.data.map Char.toUpper))

/-- The suffix-stripping loop of `normalize_hs_name`, on `String`. -/
def stripSuffixesStr (s : String) : String := String.mk (stripSuffixes s.data)

/-- The St./Saint standardization of `normalize_hs_name`, on `String`. -/
def saintSubStr (s : String) : String := String.mk (saintSub s.data)

/-- The punctuation removal of `normalize_hs_name`, on `String`. -/
def removePunctStr (s : String) : String := String.mk (removePunct s.data)

/-- The trailing-parenthetical removal of `normalize_hs_name`, on `String`. -/
def parenCutStr (s : String) : String := String.mk (parenCut s.data)

/-- The final `re.sub(r'\s+', ' ', s).strip()` of `normalize_hs_name`. -/
def collapseStripStr (s : String) : String := String.mk (pyStrip (collapseWsAux false s.data))

/-- `normalize_hs_name` (scripts/normalize_high_schools.py, lines 17-59):
`none` models a missing (`pd.isna`) name. -/
def normalize_hs_name : Option String → String
  | none => ""
  | some s =>
    if s = "" then ""
    else
      collapseStripStr (parenCutStr (removePunctStr (saintSubStr
        (stripSuffixesStr (upperStripStr s)))))

/-- `normalize_hs_name` on a present (non-NaN) input string. -/
def normStr (s : String) : String := normalize_hs_name (some s)

/-- Does `pat` occur at the start of `l`? (exact, case-sensitive) -/
def leadsWith : List Char → List Char → Bool
  | [], _ => true
  | _ :: _, [] => false
  | p :: ps, c :: cs => p == c && leadsWith ps cs

/-- Python's substring test `pat in l` (empty pattern always matches). -/
def containsSub : List Char → List Char → Bool
  | [], pat => leadsWith pat []
  | c :: t, pat => leadsWith pat (c :: t) || containsSub t pat

/-- Python's `pat in s` on strings. -/
def containsStr (s pat : String) : Bool := containsSub s.data pat.data

/-- Python's `str.upper()` (ASCII fragment). -/
def upperStr (s : String) : String := String.mk (s.data.map Char.toUpper)

/-- The prep-school markers of `categorize_school_type`. -/
def prepMarkers : List String := ["ACADEMY", "PREP", "PREPARATORY"]

/-- The private-school markers of `categorize_school_type`. -/
def privateMarkers : List String :=
  ["SAINT ", "ST. ", "BISHOP ", "CATHOLIC", "CHRISTIAN",
   "LUTHERAN", "METHODIST", "BAPTIST", "EPISCOPAL"]

/-- The international markers of `categorize_school_type`. -/
def intlMarkers : List String :=
  ["IES ", "INSTITUT", "LYCEE", "GYMNASIUM", "SECONDARY SCHOOL", "COLLEGE "]

/-- The public-school markers of `categorize_school_type`. -/
def publicMarkers : List String :=
  [" HS", "HIGH SCHOOL", "H.S.", "CENTRAL", "EAST ", "WEST ", "NORTH ", "SOUTH "]

/-- `any(pattern in name_upper for pattern in markers)`. -/
def anyMarker (u : String) (ms : List String) : Bool := ms.any (fun m => containsStr u m)

/-- `categorize_school_type` (scripts/normalize_high_schools.py, lines 79-115):
`none` models a missing (`pd.isna`) name. -/
def categorize_school_type : Option String → String
  | none => "unknown"
  | some name =>
    if anyMarker (upperStr name) prepMarkers then "prep"
    else if anyMarker (upperStr name) privateMarkers then "private"
    else if anyMarker (upperStr name) intlMarkers then "international"
    else if anyMarker (upperStr name) publicMarkers then "public"
    else "unknown"

/-- One row of the `unique_schools` table built by `analyze_high_schools`
(also the row format of the potential-duplicates CSV): an original spelling
with its aggregated state, country and occurrence count.  `state = none`
models a NaN state; `high_school_normalized` is not stored because the
pipeline always sets it to `normalize_hs_name` of the original name. -/
structure SchoolRec where
  high_school_original : String
  state : Option String
  country : String
  player_count : Nat
deriving DecidableEq, Repr

/-- The groupby key `(high_school_normalized, state)` of a record. -/
def keyOf (r : SchoolRec) : String × Option String :=
  (normalize_hs_name (some r.high_school_original), r.state)

/-- `schools_df[schools_df['country'] == 'USA']`. -/
def usaRecords (rs : List SchoolRec) : List SchoolRec :=
  rs.filter (fun r => r.country == "USA")

/-- The rows that take part in `groupby(['high_school_normalized', 'state'])`
restricted to USA rows: pandas `groupby` drops rows whose key is NaN, so a
`none` state excludes the row from every group. -/
def eligibleRecords (rs : List SchoolRec) : List SchoolRec :=
  (usaRecords rs).filter (fun r => r.state.isSome)

/-- The group of a given `(normalized, state)` key. -/
def groupFor (rs : List SchoolRec) (k : String × Option String) : List SchoolRec :=
  (eligibleRecords rs).filter (fun r => decide (keyOf r = k))

/-- The distinct group keys occurring in the eligible rows. -/
def groupKeys (rs : List SchoolRec) : List (String × Option String) :=
  ((eligibleRecords rs).map keyOf).dedup

/-- All groups produced by `groupby(['high_school_normalized', 'state'])`
on the USA rows (one per distinct key; key iteration order is immaterial
to the properties below). -/
def allGroups (rs : List SchoolRec) : List (List SchoolRec) :=
  (groupKeys rs).map (groupFor rs)

/-- The groups kept by `.filter(lambda x: len(x) > 1)`: the duplicate
groups. -/
def duplicateGroups (rs : List SchoolRec) : List (List SchoolRec) :=
  (allGroups rs).filter (fun g => decide (2 ≤ g.length))

/-- `identify_duplicates` (scripts/normalize_high_schools.py, lines 195-219)
as the set of rows it returns: the USA rows whose group has more than one
member (`groupby(...).filter(lambda x: len(x) > 1)` keeps exactly the rows
of such groups, in row order; the final cosmetic sort is not modelled). -/
def identify_duplicates (rs : List SchoolRec) : List SchoolRec :=
  (eligibleRecords rs).filter (fun r => decide (2 ≤ (groupFor rs (keyOf r)).length))

/-- `score_name` inside `select_canonical_name`
(scripts/build_hs_mapping.py, lines 35-43). -/
def score_name (name : String) : Int :=
  (if containsStr name "High School" then (100 : Int)
   else if containsStr name " HS" && !containsStr name "H.S." then 50
   else 0)
  - 10 * (name.data.count '.')

/-- The maximum `player_count` of a list of records (0 on the empty list;
the source reads it off the count-sorted group, which is the same value). -/
def maxCount (g : List SchoolRec) : Nat :=
  (g.map (fun r => r.player_count)).foldr max 0

/-- The records of a group achieving the maximal `player_count`
(`top_candidates` in the source). -/
def topCandidates (g : List SchoolRec) : List SchoolRec :=
  g.filter (fun r => r.player_count == maxCount g)

/-- Code-point lexicographic order on character lists: Python's `<` on
strings, the order pandas uses to sort the `high_school_original` column. -/
def lexLt : List Char → List Char → Bool
  | [], [] => false
  | [], _ :: _ => true
  | _ :: _, [] => false
  | a :: as, b :: bs => a < b || (a == b && lexLt as bs)

/-- Does `r` sort strictly before `best` under
`sort_values(['name_score', 'high_school_original'], ascending=[False, True])`? -/
def betterB (r best : SchoolRec) : Bool :=
  score_name best.high_school_original < score_name r.high_school_original ||
  (score_name r.high_school_original == score_name best.high_school_original &&
    lexLt r.high_school_original.data best.high_school_original.data)

/-- First element of the score-sorted candidates, computed as a fold
(deterministic for distinct `(score, name)` keys, which is the only case the
unstable pandas sort pins down; on exact key ties the earlier row is kept). -/
def bestCandidate : SchoolRec → List SchoolRec → SchoolRec
  | best, [] => best
  | best, r :: rest => bestCandidate (if betterB r best then r else best) rest

/-- First element of the score-sorted nonempty candidate list. -/
def selectBest : List SchoolRec → Option SchoolRec
  | [] => none
  | t :: ts => some (bestCandidate t ts)

/-- `select_canonical_name` (scripts/build_hs_mapping.py, lines 14-49).
`none` models the `IndexError` that `group_df.iloc[0]` raises on an empty
group (the defensive empty-group case). -/
def select_canonical_name (g : List SchoolRec) : Option SchoolRec :=
  if g.length = 0 then none
  else if (topCandidates g).length = 1 then (topCandidates g).head?
  else selectBest (topCandidates g)

/-- One row of the mapping table built by `create_duplicate_mapping`. -/
structure MapRow where
  high_school_original : String
  high_school_standardized : String
  state : Option String
  confidence : String
  source : String
  nces_id : Option String
  player_count : Nat
  canonical_player_count : Nat
deriving DecidableEq, Repr

/-- The mapping row emitted for member `r` of a group with canonical
record `c` under group-key state `st`. -/
def mkDupRow (r c : SchoolRec) (st : Option String) : MapRow :=
  { high_school_original := r.high_school_original
    high_school_standardized := c.high_school_original
    state := st
    confidence := "high_auto"
    source := "duplicate_resolution"
    nces_id := none
    player_count := r.player_count
    canonical_player_count := c.player_count }

/-- The rows of the duplicates file taking part in its groupby (again, NaN
state keys are dropped by pandas; `create_duplicate_mapping` does not
re-filter on country). -/
def dupEligible (rs : List SchoolRec) : List SchoolRec :=
  rs.filter (fun r => r.state.isSome)

/-- The distinct `(normalized, state)` keys of the duplicates file. -/
def dupKeys (rs : List SchoolRec) : List (String × Option String) :=
  ((dupEligible rs).map keyOf).dedup

/-- The group of rows of the duplicates file with the given key. -/
def dupGroup (rs : List SchoolRec) (k : String × Option String) : List SchoolRec :=
  (dupEligible rs).filter (fun r => decide (keyOf r = k))

/-- `create_duplicate_mapping` (scripts/build_hs_mapping.py, lines 52-88):
groups the duplicates file by `(high_school_normalized, state)`, skips
singleton groups, selects a canonical record per group and emits one row per
member.  (A `none` canonical cannot occur for the surviving groups.) -/
def create_duplicate_mapping (rs : List SchoolRec) : List MapRow :=
  (dupKeys rs).flatMap (fun k =>
    if (dupGroup rs k).length = 1 then []
    else
      match select_canonical_name (dupGroup rs k) with
      | none => []
      | some c => (dupGroup rs k).map (fun r => mkDupRow r c k.2))

/-- One entry of the manually curated `prep_schools` list of
`create_prep_school_mapping`. -/
structure PrepSchool where
  original : String
  standardized : String
  city : String
  state : String
deriving DecidableEq, Repr

/-- The raw string "The Governor's Academy" (apostrophe spelled out). -/
def govAcademyName : String := "The Governor" ++ apos.toString ++ "s Academy"

/-- The raw string "St. Andrew's School" (apostrophe spelled out). -/
def stAndrewsName : String := "St. Andrew" ++ apos.toString ++ "s School"

/-- The `prep_schools` list (scripts/build_hs_mapping.py, lines 99-125). -/
def prep_schools : List PrepSchool :=
  [⟨"IMG Academy", "IMG Academy", "Bradenton", "FL"⟩,
   ⟨"Montverde Academy", "Montverde Academy", "Montverde", "FL"⟩,
   ⟨"Oak Hill Academy", "Oak Hill Academy", "Mouth of Wilson", "VA"⟩,
   ⟨"Brewster Academy", "Brewster Academy", "Wolfeboro", "NH"⟩,
   ⟨"Prolific Prep", "Prolific Prep", "Napa", "CA"⟩,
   ⟨"Spire Academy", "Spire Institute", "Geneva", "OH"⟩,
   ⟨"Spire Institute", "Spire Institute", "Geneva", "OH"⟩,
   ⟨"Link Academy", "Link Academy", "Branson", "MO"⟩,
   ⟨"La Lumiere School", "La Lumiere School", "La Porte", "IN"⟩,
   ⟨"New Hope Academy", "New Hope Christian Academy", "Landover Hills", "MD"⟩,
   ⟨"New Hope Christian Academy", "New Hope Christian Academy", "Landover Hills", "MD"⟩,
   ⟨"Hamilton Heights Christian Academy", "Hamilton Heights Christian Academy",
     "Chattanooga", "TN"⟩,
   ⟨"Northfield Mount Hermon", "Northfield Mount Hermon School", "Gill", "MA"⟩,
   ⟨"Northfield Mount Hermon School", "Northfield Mount Hermon School", "Gill", "MA"⟩,
   ⟨"South Kent School", "South Kent School", "South Kent", "CT"⟩,
   ⟨"Wilbraham & Monson Academy", "Wilbraham & Monson Academy", "Wilbraham", "MA"⟩,
   ⟨"Westtown School", "Westtown School", "West Chester", "PA"⟩,
   ⟨"Worcester Academy", "Worcester Academy", "Worcester", "MA"⟩,
   ⟨govAcademyName, govAcademyName, "Byfield", "MA"⟩,
   ⟨"Governors Academy", govAcademyName, "Byfield", "MA"⟩,
   ⟨"Blair Academy", "Blair Academy", "Blairstown", "NJ"⟩,
   ⟨"Putnam Science Academy", "Putnam Science Academy", "Putnam", "CT"⟩,
   ⟨stAndrewsName, stAndrewsName, "Barrington", "RI"⟩,
   ⟨"Tabor Academy", "Tabor Academy", "Marion", "MA"⟩,
   ⟨"Choate Rosemary Hall", "Choate Rosemary Hall", "Wallingford", "CT"⟩]

/-- One row of the manual prep-school mapping table. -/
structure PrepMapRow where
  high_school_original : String
  high_school_standardized : String
  state : String
  confidence : String
  source : String
  nces_id : Option String
  city : String
  notes : String
deriving DecidableEq, Repr

/-- `create_prep_school_mapping` (scripts/build_hs_mapping.py, lines 91-143). -/
def create_prep_school_mapping : List PrepMapRow :=
  prep_schools.map (fun school =>
    { high_school_original := school.original
      high_school_standardized := school.standardized
      state := school.state
      confidence := "high_manual"
      source := "prep_school_curated"
      nces_id := none
      city := school.city
      notes := "Manually curated prep/basketball academy" })

/-- Key lookup in the curated prep mapping (first row whose
`high_school_original` equals the query, as a dict lookup would see it;
the originals of the curated list are pairwise distinct). -/
def prepLookup (x : String) : Option String :=
  (create_prep_school_mapping.find? (fun row => row.high_school_original == x)).map
    (fun row => row.high_school_standardized)

/-- Modelled from the spec (C3's reading): strip ONE trailing suffix, trying
`' HIGH SCHOOL'`, `' H.S.'`, `' HS'`, `' H.S'` in order and applying only the
first pattern that matches.  This is the comparator for the claim, NOT the
source's behaviour. -/
def specFirstSuffixOnly (l : List Char) : List Char :=
  match matchToksRev patHighSchool l.reverse with
  | some rem => rem.reverse
  | none =>
    match matchToksRev patHdotSdot l.reverse with
    | some rem => rem.reverse
    | none =>
      match matchToksRev patHS l.reverse with
      | some rem => rem.reverse
      | none =>
        match matchToksRev patHdotS l.reverse with
        | some rem => rem.reverse
        | none => l

/-- `specFirstSuffixOnly` on `String`. -/
def specFirstSuffixOnlyStr (s : String) : String := String.mk (specFirstSuffixOnly s.data)

/-- The raw string "St. Mary's H.S." of the spec's test vector
(apostrophe spelled out). -/
def stMarysName : String := "St. Mary" ++ apos.toString ++ "s H.S."

/-- The spec's example tied group: counts `[3, 3]`, names "A.B. Academy"
and "AB Academy". -/
def tiedPairGroup : List SchoolRec :=
  [⟨"A.B. Academy", some "TX", "USA", 3⟩, ⟨"AB Academy", some "TX", "USA", 3⟩]

/-- A concrete USA row ("Central High School", state OH). -/
def cpA : SchoolRec := ⟨"Central High School", some "OH", "USA", 5⟩

/-- A concrete USA row ("Central HS", state OH). -/
def cpB : SchoolRec := ⟨"Central HS", some "OH", "USA", 5⟩

/-- Concrete input for the C5 witness: two USA rows whose names normalize
to the same key in the same (non-null) state. -/
def centralPair : List SchoolRec := [cpA, cpB]

/-- A concrete USA row with a null (NaN) state. -/
def cNullA : SchoolRec := ⟨"Central HS", none, "USA", 3⟩

/-- Another concrete USA row with a null state and the same normalized name. -/
def cNullB : SchoolRec := ⟨"Central High School", none, "USA", 3⟩

/-- Concrete input for the C5 counterexample: two USA rows with equal
normalized names and equal (null) states. -/
def centralNullPair : List SchoolRec := [cNullA, cNullB]

/-- A concrete USA row with a null state (C8 counterexample). -/
def lNullA : SchoolRec := ⟨"Lincoln HS", none, "USA", 2⟩

/-- Another concrete USA row with a null state and the same normalized name. -/
def lNullB : SchoolRec := ⟨"Lincoln High School", none, "USA", 1⟩

/-- Concrete input for the C8 counterexample: two USA rows with equal
normalized names, both with a null state. -/
def lincolnNullPair : List SchoolRec := [lNullA, lNullB]

/-- A concrete USA row with an empty-string state. -/
def wEmptyA : SchoolRec := ⟨"Washington HS", some "", "USA", 2⟩

/-- Concrete input for the C8 witness: USA rows with empty-string states. -/
def emptyStatePair : List SchoolRec :=
  [wEmptyA, ⟨"Washington High School", some "", "USA", 1⟩]

/-- Concrete duplicates-file input for the C6/C9 witnesses: the spec's
end-to-end example rows. -/
def endToEndRows : List SchoolRec :=
  [⟨"Central High School", some "OH", "USA", 5⟩, ⟨"Central HS", some "OH", "USA", 5⟩,
   ⟨"Lincoln HS", some "OH", "USA", 1⟩]

theorem dropLitCI_app {p l rem : List Char} (h : dropLitCI p l = some rem) :
    ∃ pre, l = pre ++ rem := by
  induction p generalizing l with
  | nil =>
    cases h
    exact ⟨[], rfl⟩
  | cons q ps ih =>
    cases l with
    | nil => simp [dropLitCI] at h
    | cons c cs =>
      simp only [dropLitCI] at h
      split at h
      · obtain ⟨pre, hpre⟩ := ih h
        exact ⟨c :: pre, by simp [hpre]⟩
      · cases h

theorem matchToksRev_app {toks : List Tok} {l rem : List Char}
    (h : matchToksRev toks l = some rem) : ∃ pre, l = pre ++ rem := by
  induction toks generalizing l with
  | nil =>
    cases h
    exact ⟨[], rfl⟩
  | cons t ts ih =>
    cases t with
    | ws =>
      cases l with
      | nil => simp [matchToksRev] at h
      | cons c rest =>
        simp only [matchToksRev] at h
        split at h
        · obtain ⟨pre, hpre⟩ := ih h
          refine ⟨c :: (List.takeWhile isWs rest ++ pre), ?_⟩
          have hsplit := List.takeWhile_append_dropWhile (p := isWs) (l := rest)
          simp only [List.cons_append, List.append_assoc]
          rw [← hpre, hsplit]
        · cases h
    | lit p =>
      simp only [matchToksRev] at h
      cases hd : dropLitCI p l with
      | none => rw [hd] at h; cases h
      | some l2 =>
        rw [hd] at h
        obtain ⟨pre1, hpre1⟩ := dropLitCI_app hd
        obtain ⟨pre2, hpre2⟩ := ih h
        exact ⟨pre1 ++ pre2, by simp [hpre1, hpre2]⟩

theorem stripOneSuffix_app (p : List Tok) (l : List Char) :
    ∃ m, l = stripOneSuffix p l ++ m := by
  unfold stripOneSuffix
  cases h : matchToksRev p l.reverse with
  | none => exact ⟨[], by simp⟩
  | some rem =>
    obtain ⟨pre, hpre⟩ := matchToksRev_app h
    refine ⟨pre.reverse, ?_⟩
    have : l.reverse.reverse = (pre ++ rem).reverse := by rw [← hpre]
    simpa using this

theorem mem_stripOneSuffix {p : List Tok} {l : List Char} {c : Char}
    (h : c ∈ stripOneSuffix p l) : c ∈ l := by
  obtain ⟨m, hm⟩ := stripOneSuffix_app p l
  rw [hm]
  exact List.mem_append_left m h

/-- C3: [corrected] the source does NOT stop at the first matching suffix
pattern: the four substitutions `' HIGH SCHOOL'`, `' H.S.'`, `' HS'`,
`' H.S'` are applied in this order, EACH to the result of the previous one,
and each single application removes at most one contiguous trailing chunk
(the anchored match).  Hence several suffixes can be removed in one pass. -/
theorem C3_suffixes_sequential :
    (∀ l : List Char,
      stripSuffixes l =
        stripOneSuffix patHdotS (stripOneSuffix patHS
          (stripOneSuffix patHdotSdot (stripOneSuffix patHighSchool l)))) ∧
    (∀ (p : List Tok) (l : List Char), ∃ m, l = stripOneSuffix p l ++ m) :=
  ⟨fun _ => rfl, stripOneSuffix_app⟩

/-- C3 counterexample: on "A HS H.S." the source strips two suffixes
(first `' H.S.'`, then `' HS'` from the already-stripped result), while the
claimed first-match-only behaviour would strip only `' H.S.'`. -/
theorem C3_counterexample :
    stripSuffixesStr "A HS H.S." = "A" ∧
    specFirstSuffixOnlyStr "A HS H.S." = "A HS" ∧
    stripSuffixesStr "A HS H.S." ≠ specFirstSuffixOnlyStr "A HS H.S." := by
  refine ⟨by decide, by decide, by decide⟩

/-- C4: [corrected] the first and third test vectors hold, but
`normalize("St. Mary's H.S.")` is "SAINT MARYS", not "SAINT MARY": the
punctuation step removes the apostrophe and keeps the trailing "S". -/
theorem C4_test_vectors :
    normalize_hs_name (some "Lincoln High School") = "LINCOLN" ∧
    normalize_hs_name (some stMarysName) = "SAINT MARYS" ∧
    normalize_hs_name (some "") = "" ∧
    normalize_hs_name none = "" := by
  refine ⟨by decide, by decide, by decide, by decide⟩

/-- C4 counterexample: the claimed value "SAINT MARY" is wrong for
"St. Mary's H.S.". -/
theorem C4_counterexample :
    normalize_hs_name (some stMarysName) = "SAINT MARYS" ∧
    normalize_hs_name (some stMarysName) ≠ "SAINT MARY" := by
  refine ⟨by decide, by decide⟩

theorem prep_rows_selfmap :
    ∀ row ∈ create_prep_school_mapping,
      prepLookup row.high_school_standardized = some row.high_school_standardized := by
  decide

/-- C10: every standardized name of the curated prep list is itself a key
mapping to itself, so the original→standardized lookup is idempotent:
looking up twice is the same as looking up once, for every query string. -/
theorem C10_prep_lookup_idem :
    ∀ x : String, (prepLookup x).bind prepLookup = prepLookup x := by
  intro x
  cases h : prepLookup x with
  | none => simp
  | some s =>
    have hs : ∃ row ∈ create_prep_school_mapping, s = row.high_school_standardized := by
      unfold prepLookup at h
      cases hf : create_prep_school_mapping.find?
          (fun row => row.high_school_original == x) with
      | none => rw [hf] at h; cases h
      | some row =>
        rw [hf] at h
        exact ⟨row, List.mem_of_find?_eq_some hf, by cases h; rfl⟩
    obtain ⟨row, hrow, rfl⟩ := hs
    simpa using prep_rows_selfmap row hrow

theorem maxCount_cons (r : SchoolRec) (l : List SchoolRec) :
    maxCount (r :: l) = max r.player_count (maxCount l) := by
  simp [maxCount]

theorem mem_le_maxCount {g : List SchoolRec} {r : SchoolRec} (h : r ∈ g) :
    r.player_count ≤ maxCount g := by
  induction g with
  | nil => cases h
  | cons r0 l ih =>
    rw [maxCount_cons]
    rcases List.mem_cons.1 h with rfl | hmem
    · exact Nat.le_max_left _ _
    · exact Nat.le_trans (ih hmem) (Nat.le_max_right _ _)

theorem maxCount_attained {g : List SchoolRec} (h : g ≠ []) :
    ∃ r ∈ g, r.player_count = maxCount g := by
  induction g with
  | nil => exact absurd rfl h
  | cons r0 l ih =>
    rw [maxCount_cons]
    by_cases hle : maxCount l ≤ r0.player_count
    · exact ⟨r0, List.mem_cons_self _ _, (Nat.max_eq_left hle).symm⟩
    · have hl : l ≠ [] := by
        intro hnil
        rw [hnil] at hle
        exact hle (Nat.zero_le _)
      obtain ⟨r, hr, hval⟩ := ih hl
      refine ⟨r, List.mem_cons_of_mem _ hr, ?_⟩
      rw [hval, Nat.max_eq_right (Nat.le_of_not_le hle)]

theorem topCandidates_ne_nil {g : List SchoolRec} (h : g ≠ []) :
    topCandidates g ≠ [] := by
  obtain ⟨r, hr, hval⟩ := maxCount_attained h
  have : r ∈ topCandidates g := by
    simp [topCandidates, List.mem_filter, hr, hval]
  exact List.ne_nil_of_mem this

theorem bestCandidate_mem : ∀ (l : List SchoolRec) (b : SchoolRec),
    bestCandidate b l ∈ b :: l := by
  intro l
  induction l with
  | nil => intro b; simp [bestCandidate]
  | cons r rest ih =>
    intro b
    simp only [bestCandidate]
    rcases List.mem_cons.1 (ih (if betterB r b then r else b)) with hq | hq
    · rw [hq]
      split
      · exact List.mem_cons_of_mem _ (List.mem_cons_self _ _)
      · exact List.mem_cons_self _ _
    · exact List.mem_cons_of_mem _ (List.mem_cons_of_mem _ hq)

theorem mem_topCandidates {g : List SchoolRec} {r : SchoolRec}
    (h : r ∈ topCandidates g) : r ∈ g :=
  (List.mem_filter.1 h).1

theorem selectBest_mem {l : List SchoolRec} {c : SchoolRec}
    (h : selectBest l = some c) : c ∈ l := by
  cases l with
  | nil => cases h
  | cons t ts =>
    cases h
    exact bestCandidate_mem ts t

theorem select_mem {g : List SchoolRec} {c : SchoolRec}
    (h : select_canonical_name g = some c) : c ∈ g := by
  unfold select_canonical_name at h
  split at h
  · cases h
  · split at h
    · cases hl : topCandidates g with
      | nil => rw [hl] at h; cases h
      | cons t ts =>
        rw [hl] at h
        cases h
        exact mem_topCandidates (hl ▸ List.mem_cons_self _ _)
    · exact mem_topCandidates (selectBest_mem h)

theorem select_isSome {g : List SchoolRec} (h : g ≠ []) :
    (select_canonical_name g).isSome = true := by
  unfold select_canonical_name
  have hg : ¬ g.length = 0 := by
    intro h0
    exact h (List.length_eq_zero.1 h0)
  rw [if_neg hg]
  cases hl : topCandidates g with
  | nil => exact absurd hl (topCandidates_ne_nil h)
  | cons t ts =>
    split
    · rfl
    · rfl

/-- C9: [confirmed] the defensive empty-group case fails fast: on an empty
group `select_canonical_name` produces no record (`group_df.iloc[0]` raises
`IndexError`, modelled as `none`), so no mapping row can be built from it;
and the pipeline never feeds it an empty group (every groupby group is
nonempty, and nonempty groups always yield a canonical record). -/
theorem C9_empty_group_fails :
    select_canonical_name ([] : List SchoolRec) = none ∧
    (∀ g : List SchoolRec, g ≠ [] → (select_canonical_name g).isSome = true) ∧
    (∀ (rs : List SchoolRec) (k : String × Option String),
      k ∈ dupKeys rs → dupGroup rs k ≠ []) := by
  refine ⟨rfl, fun g h => select_isSome h, ?_⟩
  intro rs k hk
  simp only [dupKeys, List.mem_dedup, List.mem_map] at hk
  obtain ⟨r, hr, hkey⟩ := hk
  have : r ∈ dupGroup rs k := by
    simp [dupGroup, List.mem_filter, hr, hkey]
  exact List.ne_nil_of_mem this

/-- C9 witness: a nonempty concrete group yields a canonical record. -/
theorem C9_witness : (select_canonical_name endToEndRows).isSome = true :=
  C9_empty_group_fails.2.1 endToEndRows (by decide)

/-- C7: [confirmed] `categorize_school_type` checks its rules in a fixed
precedence order — prep markers, then private, then international, then
public, else unknown — and in particular "IMG Academy" is `prep` and
"Central Catholic High School" is `private` (CATHOLIC is tested before the
public-school markers it also contains). -/
theorem C7_classifier_precedence :
    categorize_school_type (some "IMG Academy") = "prep" ∧
    categorize_school_type (some "Central Catholic High School") = "private" ∧
    (∀ name, anyMarker (upperStr name) prepMarkers = true →
      categorize_school_type (some name) = "prep") ∧
    (∀ name, anyMarker (upperStr name) prepMarkers = false →
      anyMarker (upperStr name) privateMarkers = true →
      categorize_school_type (some name) = "private") ∧
    (∀ name, anyMarker (upperStr name) prepMarkers = false →
      anyMarker (upperStr name) privateMarkers = false →
      anyMarker (upperStr name) intlMarkers = true →
      categorize_school_type (some name) = "international") ∧
    (∀ name, anyMarker (upperStr name) prepMarkers = false →
      anyMarker (upperStr name) privateMarkers = false →
      anyMarker (upperStr name) intlMarkers = false →
      anyMarker (upperStr name) publicMarkers = true →
      categorize_school_type (some name) = "public") ∧
    (∀ name, anyMarker (upperStr name) prepMarkers = false →
      anyMarker (upperStr name) privateMarkers = false →
      anyMarker (upperStr name) intlMarkers = false →
      anyMarker (upperStr name) publicMarkers = false →
      categorize_school_type (some name) = "unknown") := by
  refine ⟨by decide, by decide, ?_, ?_, ?_, ?_, ?_⟩
  · intro name h1
    simp [categorize_school_type, h1]
  · intro name h1 h2
    simp [categorize_school_type, h1, h2]
  · intro name h1 h2 h3
    simp [categorize_school_type, h1, h2, h3]
  · intro name h1 h2 h3 h4
    simp [categorize_school_type, h1, h2, h3, h4]
  · intro name h1 h2 h3 h4
    simp [categorize_school_type, h1, h2, h3, h4]

/-- C7 witness: the private rule applied concretely through the theorem. -/
theorem C7_witness : categorize_school_type (some "Central Catholic High School") = "private" :=
  C7_classifier_precedence.2.2.2.1 "Central Catholic High School" (by decide) (by decide)

theorem mem_eligible_iff {rs : List SchoolRec} {r : SchoolRec} :
    r ∈ eligibleRecords rs ↔ r ∈ rs ∧ r.country = "USA" ∧ r.state.isSome = true := by
  simp only [eligibleRecords, usaRecords, List.mem_filter, beq_iff_eq, and_assoc]

theorem mem_groupFor_iff {rs : List SchoolRec} {k : String × Option String} {r : SchoolRec} :
    r ∈ groupFor rs k ↔ r ∈ eligibleRecords rs ∧ keyOf r = k := by
  simp [groupFor, List.mem_filter]

theorem keyOf_mem_groupKeys {rs : List SchoolRec} {r : SchoolRec}
    (h : r ∈ eligibleRecords rs) : keyOf r ∈ groupKeys rs := by
  simp only [groupKeys, List.mem_dedup, List.mem_map]
  exact ⟨r, h, rfl⟩

theorem groupFor_mem_allGroups {rs : List SchoolRec} {r : SchoolRec}
    (h : r ∈ eligibleRecords rs) : groupFor rs (keyOf r) ∈ allGroups rs :=
  List.mem_map_of_mem _ (keyOf_mem_groupKeys h)

theorem allGroups_eq {rs : List SchoolRec} {g : List SchoolRec} (h : g ∈ allGroups rs) :
    ∃ k, k ∈ groupKeys rs ∧ g = groupFor rs k := by
  simp only [allGroups, List.mem_map] at h
  obtain ⟨k, hk, hg⟩ := h
  exact ⟨k, hk, hg.symm⟩

/-- C5: [corrected] for USA records with a NON-NULL state, two records
land in the same group iff their normalized names agree and their states
agree; groups are disjoint (each record is in at most one), a duplicate
group has at least two members, and all members of a group share the same
normalized key and state.  USA records with a null state are excluded
from grouping altogether, so the claimed equivalence fails for them. -/
theorem C5_grouping_partition :
    (∀ (rs : List SchoolRec) (r1 r2 : SchoolRec),
      r1 ∈ eligibleRecords rs → r2 ∈ eligibleRecords rs →
      ((∃ g ∈ allGroups rs, r1 ∈ g ∧ r2 ∈ g) ↔
        (normalize_hs_name (some r1.high_school_original) =
          normalize_hs_name (some r2.high_school_original) ∧ r1.state = r2.state))) ∧
    (∀ (rs : List SchoolRec) (g1 g2 : List SchoolRec) (r : SchoolRec),
      g1 ∈ allGroups rs → g2 ∈ allGroups rs → r ∈ g1 → r ∈ g2 → g1 = g2) ∧
    (∀ (rs : List SchoolRec) (g : List SchoolRec), g ∈ duplicateGroups rs →
      2 ≤ g.length ∧ ∀ r1 r2, r1 ∈ g → r2 ∈ g → keyOf r1 = keyOf r2) := by
  refine ⟨?_, ?_, ?_⟩
  · intro rs r1 r2 h1 h2
    constructor
    · rintro ⟨g, hg, hm1, hm2⟩
      obtain ⟨k, _, rfl⟩ := allGroups_eq hg
      have e1 := (mem_groupFor_iff.1 hm1).2
      have e2 := (mem_groupFor_iff.1 hm2).2
      have : keyOf r1 = keyOf r2 := e1.trans e2.symm
      exact ⟨congrArg Prod.fst this, congrArg Prod.snd this⟩
    · rintro ⟨hn, hs⟩
      have hkey : keyOf r1 = keyOf r2 := by
        simp only [keyOf]
        rw [hn, hs]
      refine ⟨groupFor rs (keyOf r1), groupFor_mem_allGroups h1, ?_, ?_⟩
      · exact mem_groupFor_iff.2 ⟨h1, rfl⟩
      · exact mem_groupFor_iff.2 ⟨h2, hkey.symm⟩
  · intro rs g1 g2 r hg1 hg2 hm1 hm2
    obtain ⟨k1, _, rfl⟩ := allGroups_eq hg1
    obtain ⟨k2, _, rfl⟩ := allGroups_eq hg2
    have e1 := (mem_groupFor_iff.1 hm1).2
    have e2 := (mem_groupFor_iff.1 hm2).2
    rw [e1.symm.trans e2]
  · intro rs g hg
    have hg2 : g ∈ allGroups rs ∧ 2 ≤ g.length := by
      have := List.mem_filter.1 hg
      exact ⟨this.1, of_decide_eq_true this.2⟩
    refine ⟨hg2.2, ?_⟩
    intro r1 r2 hm1 hm2
    obtain ⟨k, _, rfl⟩ := allGroups_eq hg2.1
    have e1 := (mem_groupFor_iff.1 hm1).2
    have e2 := (mem_groupFor_iff.1 hm2).2
    exact e1.trans e2.symm

/-- C5 counterexample: two USA records with equal normalized names and
equal (null) states are NOT in a common group — pandas groupby drops rows
whose group key is NaN — refuting the claimed equivalence as stated. -/
theorem C5_counterexample :
    cNullA.country = "USA" ∧ cNullB.country = "USA" ∧
    normalize_hs_name (some cNullA.high_school_original) =
      normalize_hs_name (some cNullB.high_school_original) ∧
    cNullA.state = cNullB.state ∧
    ¬ (∃ g ∈ allGroups centralNullPair, cNullA ∈ g ∧ cNullB ∈ g) := by
  refine ⟨rfl, rfl, by decide, rfl, by decide⟩

/-- C5 witness: two concrete same-key USA rows do land in one group. -/
theorem C5_witness : ∃ g ∈ allGroups centralPair, cpA ∈ g ∧ cpB ∈ g :=
  (C5_grouping_partition.1 centralPair cpA cpB (by decide) (by decide)).mpr (by decide)

/-- C8: [corrected] grouping matches exactly on the state value for
non-null states — a USA record with the literal empty-string state is
grouped under the empty-string key — but a record whose state is null
(NaN) is dropped by groupby's default NaN-key handling and belongs to no
group at all. -/
theorem C8_empty_vs_null_state :
    (∀ (rs : List SchoolRec) (r : SchoolRec),
      r ∈ rs → r.country = "USA" → r.state = some "" →
      r ∈ groupFor rs (normalize_hs_name (some r.high_school_original), some "") ∧
      groupFor rs (normalize_hs_name (some r.high_school_original), some "") ∈
        allGroups rs) ∧
    (∀ (rs : List SchoolRec) (r : SchoolRec) (g : List SchoolRec),
      r.state = none → g ∈ allGroups rs → r ∉ g) := by
  constructor
  · intro rs r hmem hcountry hstate
    have helig : r ∈ eligibleRecords rs :=
      mem_eligible_iff.2 ⟨hmem, hcountry, by rw [hstate]; rfl⟩
    have hkey : keyOf r = (normalize_hs_name (some r.high_school_original), some "") := by
      simp [keyOf, hstate]
    constructor
    · exact mem_groupFor_iff.2 ⟨helig, hkey⟩
    · rw [← hkey]
      exact groupFor_mem_allGroups helig
  · intro rs r g hstate hg hmem
    obtain ⟨k, _, rfl⟩ := allGroups_eq hg
    have helig := (mem_groupFor_iff.1 hmem).1
    have := (mem_eligible_iff.1 helig).2.2
    rw [hstate] at this
    cases this

/-- C8 counterexample: two USA records with the same normalized name and
null states are dropped from grouping entirely, contradicting the claim
that null-state records are still grouped. -/
theorem C8_counterexample :
    lNullA.country = "USA" ∧ lNullA.state = none ∧ lNullB.country = "USA" ∧
    normalize_hs_name (some lNullA.high_school_original) =
      normalize_hs_name (some lNullB.high_school_original) ∧
    allGroups lincolnNullPair = [] ∧
    identify_duplicates lincolnNullPair = [] ∧
    ¬ (∃ g ∈ allGroups lincolnNullPair, lNullA ∈ g) := by
  refine ⟨rfl, rfl, rfl, by decide, by decide, by decide, by decide⟩

/-- C8 witness: an empty-string state record grouped under its literal key. -/
theorem C8_witness :
    wEmptyA ∈ groupFor emptyStatePair
      (normalize_hs_name (some wEmptyA.high_school_original), some "") ∧
    groupFor emptyStatePair
      (normalize_hs_name (some wEmptyA.high_school_original), some "") ∈
      allGroups emptyStatePair :=
  C8_empty_vs_null_state.1 emptyStatePair wEmptyA (by decide) rfl rfl

/-- C6: [confirmed] for every surviving duplicate group the output mapping
contains the group's block: one `high_auto` / `duplicate_resolution` row per
member, mapping its original name to the canonical record's original name;
in particular the canonical record itself is mapped to itself. -/
theorem C6_duplicate_mapping_complete :
    ∀ (rs : List SchoolRec) (k : String × Option String),
      k ∈ dupKeys rs → 2 ≤ (dupGroup rs k).length →
      ∃ c, select_canonical_name (dupGroup rs k) = some c ∧ c ∈ dupGroup rs k ∧
        (∃ pre post, create_duplicate_mapping rs =
          pre ++ (dupGroup rs k).map (fun r => mkDupRow r c k.2) ++ post) ∧
        (∀ r ∈ dupGroup rs k, mkDupRow r c k.2 ∈ create_duplicate_mapping rs) ∧
        mkDupRow c c k.2 ∈ create_duplicate_mapping rs ∧
        (mkDupRow c c k.2).high_school_standardized =
          (mkDupRow c c k.2).high_school_original := by
  intro rs k hk hlen
  have hne : dupGroup rs k ≠ [] := by
    intro h0
    rw [h0] at hlen
    simp at hlen
  obtain ⟨c, hc⟩ := Option.isSome_iff_exists.1 (select_isSome hne)
  refine ⟨c, hc, select_mem hc, ?_⟩
  obtain ⟨s, t, hkeys⟩ := List.append_of_mem hk
  have hmap : create_duplicate_mapping rs =
      (s.flatMap (fun k =>
        if (dupGroup rs k).length = 1 then []
        else
          match select_canonical_name (dupGroup rs k) with
          | none => []
          | some c => (dupGroup rs k).map (fun r => mkDupRow r c k.2))) ++
      ((dupGroup rs k).map (fun r => mkDupRow r c k.2)) ++
      (t.flatMap (fun k =>
        if (dupGroup rs k).length = 1 then []
        else
          match select_canonical_name (dupGroup rs k) with
          | none => []
          | some c => (dupGroup rs k).map (fun r => mkDupRow r c k.2))) := by
    unfold create_duplicate_mapping
    rw [hkeys, List.flatMap_append, List.flatMap_cons]
    rw [if_neg (by omega), hc]
    rw [List.append_assoc]
  refine ⟨⟨_, _, hmap⟩, ?_, ?_, rfl⟩
  · intro r hr
    rw [hmap]
    refine List.mem_append_left _ (List.mem_append_right _ ?_)
    exact List.mem_map_of_mem _ hr
  · rw [hmap]
    refine List.mem_append_left _ (List.mem_append_right _ ?_)
    exact List.mem_map_of_mem _ (select_mem hc)

/-- C6 witness: the concrete end-to-end rows of the spec. -/
theorem C6_witness :
    ∃ c, select_canonical_name (dupGroup endToEndRows ("CENTRAL", some "OH")) = some c ∧
      c ∈ dupGroup endToEndRows ("CENTRAL", some "OH") ∧
      (∃ pre post, create_duplicate_mapping endToEndRows =
        pre ++ (dupGroup endToEndRows ("CENTRAL", some "OH")).map
          (fun r => mkDupRow r c (some "OH")) ++ post) ∧
      (∀ r ∈ dupGroup endToEndRows ("CENTRAL", some "OH"),
        mkDupRow r c (some "OH") ∈ create_duplicate_mapping endToEndRows) ∧
      mkDupRow c c (some "OH") ∈ create_duplicate_mapping endToEndRows ∧
      (mkDupRow c c (some "OH")).high_school_standardized =
        (mkDupRow c c (some "OH")).high_school_original :=
  C6_duplicate_mapping_complete endToEndRows ("CENTRAL", some "OH") (by decide) (by decide)

theorem lexLt_irrefl (l : List Char) : lexLt l l = false := by
  induction l with
  | nil => rfl
  | cons a as ih => simp [lexLt, ih]

theorem lexLt_trans : ∀ {a b c : List Char},
    lexLt a b = true → lexLt b c = true → lexLt a c = true := by
  intro a
  induction a with
  | nil =>
    intro b c h1 h2
    cases b with
    | nil => cases h1
    | cons y ys =>
      cases c with
      | nil => cases h2
      | cons z zs => rfl
  | cons x xs ih =>
    intro b c h1 h2
    cases b with
    | nil => cases h1
    | cons y ys =>
      cases c with
      | nil => cases h2
      | cons z zs =>
        simp only [lexLt, Bool.or_eq_true, decide_eq_true_eq, Bool.and_eq_true,
          beq_iff_eq] at h1 h2 ⊢
        rcases h1 with h1 | ⟨rfl, h1⟩
        · rcases h2 with h2 | ⟨rfl, h2⟩
          · exact Or.inl (lt_trans h1 h2)
          · exact Or.inl h1
        · rcases h2 with h2 | ⟨rfl, h2⟩
          · exact Or.inl h2
          · exact Or.inr ⟨rfl, ih h1 h2⟩

theorem lexLt_trichotomy : ∀ (a b : List Char),
    lexLt a b = true ∨ a = b ∨ lexLt b a = true := by
  intro a
  induction a with
  | nil =>
    intro b
    cases b with
    | nil => exact Or.inr (Or.inl rfl)
    | cons y ys => exact Or.inl rfl
  | cons x xs ih =>
    intro b
    cases b with
    | nil => exact Or.inr (Or.inr rfl)
    | cons y ys =>
      rcases lt_trichotomy x y with hx | rfl | hx
      · refine Or.inl ?_
        simp [lexLt, hx]
      · rcases ih ys with h | rfl | h
        · refine Or.inl ?_
          simp [lexLt, h]
        · exact Or.inr (Or.inl rfl)
        · refine Or.inr (Or.inr ?_)
          simp [lexLt, h]
      · refine Or.inr (Or.inr ?_)
        simp [lexLt, hx]

theorem lexLt_asymm {a b : List Char} (h1 : lexLt a b = true) (h2 : lexLt b a = true) :
    False := by
  have := lexLt_trans h1 h2
  rw [lexLt_irrefl] at this
  cases this

theorem betterB_true_iff {r x : SchoolRec} :
    betterB r x = true ↔
      (score_name x.high_school_original < score_name r.high_school_original ∨
        (score_name r.high_school_original = score_name x.high_school_original ∧
          lexLt r.high_school_original.data x.high_school_original.data = true)) := by
  simp [betterB]

theorem betterB_false_iff {r x : SchoolRec} :
    betterB r x = false ↔
      (score_name r.high_school_original ≤ score_name x.high_school_original ∧
        (score_name r.high_school_original = score_name x.high_school_original →
          lexLt r.high_school_original.data x.high_school_original.data = false)) := by
  rw [← Bool.not_eq_true, betterB_true_iff]
  push_neg
  simp only [Bool.not_eq_true]

theorem betterB_irrefl (r : SchoolRec) : betterB r r = false := by
  simp [betterB, lexLt_irrefl]

theorem betterB_trans {a b c : SchoolRec}
    (h1 : betterB a b = true) (h2 : betterB b c = true) : betterB a c = true := by
  rw [betterB_true_iff] at h1 h2 ⊢
  rcases h1 with h1 | ⟨he1, hl1⟩
  · rcases h2 with h2 | ⟨he2, hl2⟩
    · exact Or.inl (lt_trans h2 h1)
    · exact Or.inl (he2 ▸ h1)
  · rcases h2 with h2 | ⟨he2, hl2⟩
    · exact Or.inl (he1 ▸ h2)
    · exact Or.inr ⟨he1.trans he2, lexLt_trans hl1 hl2⟩

theorem betterB_false_trans {a b c : SchoolRec}
    (h1 : betterB a b = false) (h2 : betterB b c = false) : betterB a c = false := by
  rw [betterB_false_iff] at h1 h2 ⊢
  obtain ⟨hs1, hl1⟩ := h1
  obtain ⟨hs2, hl2⟩ := h2
  refine ⟨le_trans hs1 hs2, ?_⟩
  intro he
  have heq1 : score_name a.high_school_original = score_name b.high_school_original := by
    omega
  have heq2 : score_name b.high_school_original = score_name c.high_school_original := by
    omega
  have hnab := hl1 heq1
  have hnbc := hl2 heq2
  cases hx : lexLt a.high_school_original.data c.high_school_original.data with
  | false => rfl
  | true =>
    exfalso
    rcases lexLt_trichotomy a.high_school_original.data b.high_school_original.data with
      h | h | h
    · rw [h] at hnab; cases hnab
    · rcases lexLt_trichotomy b.high_school_original.data c.high_school_original.data with
        h2x | h2x | h2x
      · rw [h2x] at hnbc; cases hnbc
      · rw [h, h2x, lexLt_irrefl] at hx; cases hx
      · rw [h] at hx
        exact lexLt_asymm hx h2x
    · rcases lexLt_trichotomy b.high_school_original.data c.high_school_original.data with
        h2x | h2x | h2x
      · rw [h2x] at hnbc; cases hnbc
      · rw [← h2x] at hx
        exact lexLt_asymm hx h
      · exact lexLt_asymm hx (lexLt_trans h2x h)

theorem bestCandidate_not_beaten : ∀ (l : List SchoolRec) (b r' : SchoolRec),
    r' ∈ b :: l → betterB r' (bestCandidate b l) = false := by
  intro l
  induction l with
  | nil =>
    intro b r' h
    rcases List.mem_cons.1 h with rfl | h2
    · exact betterB_irrefl r'
    · cases h2
  | cons r rest ih =>
    intro b r' h
    simp only [bestCandidate]
    rcases List.mem_cons.1 h with rfl | h2
    · by_cases hb : betterB r r' = true
      · rw [if_pos hb]
        cases hx : betterB r' (bestCandidate r rest) with
        | false => rfl
        | true =>
          have h1 : betterB r (bestCandidate r rest) = true :=
            betterB_trans hb hx
          have h2 := ih r r (List.mem_cons_self r rest)
          rw [h2] at h1
          cases h1
      · rw [if_neg hb]
        exact ih r' r' (List.mem_cons_self r' rest)
    · rcases List.mem_cons.1 h2 with rfl | h3
      · by_cases hb : betterB r' b = true
        · rw [if_pos hb]
          exact ih r' r' (List.mem_cons_self r' rest)
        · rw [if_neg hb]
          have hb' : betterB r' b = false := by
            cases hx : betterB r' b
            · rfl
            · exact absurd hx hb
          exact betterB_false_trans hb' (ih b b (List.mem_cons_self b rest))
      · by_cases hb : betterB r b = true
        · rw [if_pos hb]
          exact ih r r' (List.mem_cons_of_mem r h3)
        · rw [if_neg hb]
          exact ih b r' (List.mem_cons_of_mem b h3)

/-- C2: [confirmed] whenever at least two members of a group tie at the
maximal occurrence count, the selected canonical record is a top candidate
that maximizes `name_score` (+100 for "High School", else +50 for " HS"
without "H.S.", minus 10 per period), with remaining ties broken by
ascending code-point-lexicographic raw name; on the spec's `[3, 3]` example
it picks "AB Academy". -/
theorem C2_select_top_by_score :
    (∀ (g : List SchoolRec) (c : SchoolRec),
      select_canonical_name g = some c → 2 ≤ (topCandidates g).length →
      c ∈ topCandidates g ∧
      ∀ r ∈ topCandidates g,
        score_name r.high_school_original ≤ score_name c.high_school_original ∧
        (score_name r.high_school_original = score_name c.high_school_original →
          lexLt r.high_school_original.data c.high_school_original.data = false)) ∧
    select_canonical_name tiedPairGroup = some ⟨"AB Academy", some "TX", "USA", 3⟩ := by
  constructor
  · intro g c hsel hlen
    unfold select_canonical_name at hsel
    split at hsel
    · cases hsel
    · split at hsel
      · rename_i hone
        omega
      · cases ht : topCandidates g with
        | nil => rw [ht] at hsel; cases hsel
        | cons t ts =>
          rw [ht] at hsel
          simp only [selectBest] at hsel
          cases hsel
          constructor
          · exact bestCandidate_mem ts t
          · intro r hr
            have := bestCandidate_not_beaten ts t r hr
            exact (betterB_false_iff.1 this)
  · decide

/-- C2 witness: the selected record of the spec's tied example is a top
candidate, obtained through the theorem. -/
theorem C2_witness :
    (⟨"AB Academy", some "TX", "USA", 3⟩ : SchoolRec) ∈ topCandidates tiedPairGroup :=
  (C2_select_top_by_score.1 tiedPairGroup ⟨"AB Academy", some "TX", "USA", 3⟩
    (by decide) (by decide)).1

theorem mem_trimStartWs {l : List Char} {c : Char} (h : c ∈ trimStartWs l) : c ∈ l :=
  List.Sublist.mem h (List.dropWhile_sublist isWs)

theorem mem_trimEndWs {l : List Char} {c : Char} (h : c ∈ trimEndWs l) : c ∈ l := by
  induction l with
  | nil => cases h
  | cons a rest ih =>
    simp only [trimEndWs] at h
    cases he : trimEndWs rest with
    | nil =>
      rw [he] at h
      by_cases ha : isWs a = true
      · rw [if_pos ha] at h
        cases h
      · rw [if_neg ha] at h
        rcases List.mem_cons.1 h with rfl | h2
        · exact List.mem_cons_self _ _
        · cases h2
    | cons d r =>
      rw [he] at h
      rcases List.mem_cons.1 h with rfl | h2
      · exact List.mem_cons_self _ _
      · exact List.mem_cons_of_mem _ (ih (he ▸ h2))

theorem mem_pyStrip {l : List Char} {c : Char} (h : c ∈ pyStrip l) : c ∈ l :=
  mem_trimStartWs (mem_trimEndWs h)

theorem stripSuffixes_eq (l : List Char) :
    stripSuffixes l =
      stripOneSuffix patHdotS (stripOneSuffix patHS
        (stripOneSuffix patHdotSdot (stripOneSuffix patHighSchool l))) := rfl

theorem mem_stripSuffixes {l : List Char} {c : Char} (h : c ∈ stripSuffixes l) : c ∈ l := by
  rw [stripSuffixes_eq] at h
  exact mem_stripOneSuffix (mem_stripOneSuffix (mem_stripOneSuffix (mem_stripOneSuffix h)))

theorem stWs_subset {l l2 : List Char} (h : stWs l = some l2) {c : Char} (hc : c ∈ l2) :
    c ∈ l := by
  cases l with
  | nil => cases h
  | cons a r3 =>
    simp only [stWs] at h
    split at h
    · cases h
      exact List.mem_cons_of_mem _ (mem_trimStartWs hc)
    · cases h

theorem stDotOpt_subset {l l2 : List Char} (h : stDotOpt l = some l2) {c : Char}
    (hc : c ∈ l2) : c ∈ l := by
  cases l with
  | nil => cases h
  | cons d r2 =>
    simp only [stDotOpt] at h
    split at h
    · exact List.mem_cons_of_mem _ (stWs_subset h hc)
    · exact stWs_subset h hc

theorem stTry_subset {l l2 : List Char} (h : stTry l = some l2) {c : Char} (hc : c ∈ l2) :
    c ∈ l := by
  cases l with
  | nil => cases h
  | cons a rest =>
    simp only [stTry] at h
    split at h
    · exact List.mem_cons_of_mem _ (stDotOpt_subset h hc)
    · cases h

theorem mem_saintSubFuel : ∀ (n : Nat) (b : Bool) (l : List Char) (c : Char),
    c ∈ saintSubFuel n b l → c ∈ l ∨ c ∈ ['S', 'A', 'I', 'N', 'T', ' '] := by
  intro n
  induction n with
  | zero => intro b l c h; exact Or.inl h
  | succ n ih =>
    intro b l c h
    cases l with
    | nil => cases h
    | cons a rest =>
      simp only [saintSubFuel] at h
      split at h
      · cases hst : stTry rest with
        | some rest2 =>
          rw [hst] at h
          rcases List.mem_cons.1 h with rfl | h2
          · exact Or.inr (by decide)
          rcases List.mem_cons.1 h2 with rfl | h3
          · exact Or.inr (by decide)
          rcases List.mem_cons.1 h3 with rfl | h4
          · exact Or.inr (by decide)
          rcases List.mem_cons.1 h4 with rfl | h5
          · exact Or.inr (by decide)
          rcases List.mem_cons.1 h5 with rfl | h6
          · exact Or.inr (by decide)
          rcases List.mem_cons.1 h6 with rfl | h7
          · exact Or.inr (by decide)
          rcases ih false rest2 c h7 with hc | hc
          · exact Or.inl (List.mem_cons_of_mem _ (stTry_subset hst hc))
          · exact Or.inr hc
        | none =>
          rw [hst] at h
          rcases List.mem_cons.1 h with rfl | h2
          · exact Or.inl (List.mem_cons_self _ _)
          rcases ih (isWordChar a) rest c h2 with hc | hc
          · exact Or.inl (List.mem_cons_of_mem _ hc)
          · exact Or.inr hc
      · rcases List.mem_cons.1 h with rfl | h2
        · exact Or.inl (List.mem_cons_self _ _)
        rcases ih (isWordChar a) rest c h2 with hc | hc
        · exact Or.inl (List.mem_cons_of_mem _ hc)
        · exact Or.inr hc

theorem mem_saintSub {l : List Char} {c : Char} (h : c ∈ saintSub l) :
    c ∈ l ∨ c ∈ ['S', 'A', 'I', 'N', 'T', ' '] :=
  mem_saintSubFuel l.length false l c h

theorem mem_removePunct {l : List Char} {c : Char} (h : c ∈ removePunct l) :
    c ∈ l ∧ keepPunct c = true :=
  List.mem_filter.1 h

theorem mem_parenCut {l : List Char} {c : Char} (h : c ∈ parenCut l) : c ∈ l := by
  induction l with
  | nil => cases h
  | cons a rest ih =>
    simp only [parenCut] at h
    split at h
    · cases h
    · rcases List.mem_cons.1 h with rfl | h2
      · exact List.mem_cons_self _ _
      · exact List.mem_cons_of_mem _ (ih h2)

theorem mem_collapseWsAux : ∀ (b : Bool) (l : List Char) (c : Char),
    c ∈ collapseWsAux b l → c = ' ' ∨ c ∈ l := by
  intro b l
  induction l generalizing b with
  | nil => intro c h; cases h
  | cons a rest ih =>
    intro c h
    simp only [collapseWsAux] at h
    split at h
    · split at h
      · rcases ih true c h with hc | hc
        · exact Or.inl hc
        · exact Or.inr (List.mem_cons_of_mem _ hc)
      · rcases List.mem_cons.1 h with rfl | h2
        · exact Or.inl rfl
        rcases ih true c h2 with hc | hc
        · exact Or.inl hc
        · exact Or.inr (List.mem_cons_of_mem _ hc)
    · rcases List.mem_cons.1 h with rfl | h2
      · exact Or.inr (List.mem_cons_self _ _)
      rcases ih false c h2 with hc | hc
      · exact Or.inl hc
      · exact Or.inr (List.mem_cons_of_mem _ hc)

theorem bool_eq_false {b : Bool} (h : ¬ b = true) : b = false := by
  cases b
  · rfl
  · exact absurd rfl h

theorem toUpper_eq (c : Char) :
    Char.toUpper c = if 97 ≤ c.toNat ∧ c.toNat ≤ 122 then Char.ofNat (c.toNat - 32) else c :=
  rfl

theorem toNat_ofNat_valid {n : Nat} (h : n.isValidChar) : (Char.ofNat n).toNat = n := by
  rw [Char.ofNat, dif_pos h]
  rfl

theorem toNat_toUpper (c : Char) :
    (Char.toUpper c).toNat =
      if 97 ≤ c.toNat ∧ c.toNat ≤ 122 then c.toNat - 32 else c.toNat := by
  rw [toUpper_eq]
  by_cases h : 97 ≤ c.toNat ∧ c.toNat ≤ 122
  · rw [if_pos h, if_pos h, toNat_ofNat_valid (Or.inl (by omega))]
  · rw [if_neg h, if_neg h]

theorem toUpper_toUpper (c : Char) : Char.toUpper (Char.toUpper c) = Char.toUpper c := by
  rw [toUpper_eq (Char.toUpper c)]
  by_cases h : 97 ≤ c.toNat ∧ c.toNat ≤ 122
  · rw [if_neg]
    rw [toNat_toUpper c, if_pos h]
    omega
  · rw [if_neg]
    rw [toNat_toUpper c, if_neg h]
    exact h

theorem map_toUpper_fix {l : List Char} (h : ∀ c ∈ l, Char.toUpper c = c) :
    l.map Char.toUpper = l := by
  rw [List.map_congr_left (g := id) (fun a ha => h a ha), List.map_id]

/-- No whitespace character directly followed by another whitespace
character (the shape of `re.sub(r'\s+', ' ')` output). -/
def noAdjWs : List Char → Bool
  | a :: b :: rest => !(isWs a && isWs b) && noAdjWs (b :: rest)
  | _ => true

theorem noAdjWs_tail {c : Char} {l : List Char} (h : noAdjWs (c :: l) = true) :
    noAdjWs l = true := by
  cases l with
  | nil => rfl
  | cons d r =>
    simp only [noAdjWs, Bool.and_eq_true] at h
    exact h.2

theorem noAdjWs_cons {c : Char} {l : List Char}
    (h1 : ∀ d, l.head? = some d → (isWs c && isWs d) = false)
    (h2 : noAdjWs l = true) : noAdjWs (c :: l) = true := by
  cases l with
  | nil => rfl
  | cons d r =>
    simp only [noAdjWs, Bool.and_eq_true]
    refine ⟨?_, h2⟩
    rw [h1 d rfl]
    rfl

theorem collapse_true_head : ∀ (l : List Char) (d : Char) (r : List Char),
    collapseWsAux true l = d :: r → isWs d = false := by
  intro l
  induction l with
  | nil => intro d r h; cases h
  | cons a rest ih =>
    intro d r h
    simp only [collapseWsAux] at h
    by_cases ha : isWs a = true
    · rw [if_pos ha] at h
      exact ih d r h
    · rw [if_neg ha] at h
      cases h
      exact Bool.not_eq_true _ ▸ ha

theorem noAdj_collapse : ∀ (l : List Char) (b : Bool),
    noAdjWs (collapseWsAux b l) = true := by
  intro l
  induction l with
  | nil => intro b; rfl
  | cons a rest ih =>
    intro b
    simp only [collapseWsAux]
    by_cases ha : isWs a = true
    · rw [if_pos ha]
      by_cases hb : b = true
      · rw [if_pos hb]
        exact ih true
      · rw [if_neg hb]
        refine noAdjWs_cons ?_ (ih true)
        intro d hd
        cases hcol : collapseWsAux true rest with
        | nil => rw [hcol] at hd; cases hd
        | cons e r =>
          rw [hcol] at hd
          cases hd
          rw [collapse_true_head rest d r hcol]
          simp
    · rw [if_neg ha]
      refine noAdjWs_cons ?_ (ih false)
      intro d hd
      rw [bool_eq_false ha]
      rfl

theorem noAdj_dropWhile {l : List Char} (h : noAdjWs l = true) :
    noAdjWs (List.dropWhile isWs l) = true := by
  induction l with
  | nil => rfl
  | cons a rest ih =>
    by_cases ha : isWs a = true
    · rw [List.dropWhile_cons_of_pos ha]
      exact ih (noAdjWs_tail h)
    · rw [List.dropWhile_cons_of_neg (by simp [ha])]
      exact h

theorem trimEndWs_head {l : List Char} {d : Char} {r : List Char}
    (h : trimEndWs l = d :: r) : ∃ t, l = d :: t := by
  cases l with
  | nil => cases h
  | cons a rest =>
    simp only [trimEndWs] at h
    cases he : trimEndWs rest with
    | nil =>
      rw [he] at h
      by_cases ha : isWs a = true
      · rw [if_pos ha] at h; cases h
      · rw [if_neg ha] at h
        cases h
        exact ⟨rest, rfl⟩
    | cons e r2 =>
      rw [he] at h
      cases h
      exact ⟨rest, rfl⟩

theorem noAdj_trimEnd {l : List Char} (h : noAdjWs l = true) :
    noAdjWs (trimEndWs l) = true := by
  induction l with
  | nil => rfl
  | cons a rest ih =>
    simp only [trimEndWs]
    cases he : trimEndWs rest with
    | nil =>
      by_cases ha : isWs a = true
      · rw [if_pos ha]; rfl
      · rw [if_neg ha]; rfl
    | cons d r2 =>
      refine noAdjWs_cons ?_ (he ▸ ih (noAdjWs_tail h))
      intro e hd
      have hde : d = e := Option.some.inj hd
      subst hde
      obtain ⟨t, ht⟩ := trimEndWs_head he
      rw [ht] at h
      simp only [noAdjWs, Bool.and_eq_true, Bool.not_eq_true'] at h
      exact h.1

theorem noAdj_pyStrip {l : List Char} (h : noAdjWs l = true) :
    noAdjWs (pyStrip l) = true :=
  noAdj_trimEnd (noAdj_dropWhile h)

theorem length_dropWhile_ws_le (l : List Char) :
    (List.dropWhile isWs l).length ≤ l.length := by
  induction l with
  | nil => simp [List.dropWhile]
  | cons c rest ih =>
    by_cases h : isWs c
    · simp [List.dropWhile, h]; omega
    · simp [List.dropWhile, h]

theorem dropWhile_fix_head {l : List Char} (h : List.dropWhile isWs l = l) :
    ∀ d, l.head? = some d → isWs d = false := by
  cases l with
  | nil => intro d hd; cases hd
  | cons a rest =>
    intro d hd
    have hde : a = d := Option.some.inj hd
    subst hde
    by_cases ha : isWs a = true
    · exfalso
      rw [List.dropWhile_cons_of_pos ha] at h
      have hlen := length_dropWhile_ws_le rest
      have : (List.dropWhile isWs rest).length = (a :: rest).length := by rw [h]
      simp at this
      omega
    · exact bool_eq_false ha

theorem dropWhile_ws_idem (l : List Char) :
    List.dropWhile isWs (List.dropWhile isWs l) = List.dropWhile isWs l := by
  induction l with
  | nil => rfl
  | cons a rest ih =>
    by_cases ha : isWs a = true
    · rw [List.dropWhile_cons_of_pos ha]
      exact ih
    · rw [List.dropWhile_cons_of_neg (by simp [ha]), List.dropWhile_cons_of_neg (by simp [ha])]

theorem trimEndWs_cons_eq (a : Char) (l : List Char) :
    trimEndWs (a :: l) =
      match trimEndWs l with
      | [] => if isWs a = true then [] else [a]
      | r => a :: r := rfl

theorem trimEndWs_idem (l : List Char) : trimEndWs (trimEndWs l) = trimEndWs l := by
  induction l with
  | nil => rfl
  | cons a rest ih =>
    rw [trimEndWs_cons_eq]
    cases he : trimEndWs rest with
    | nil =>
      by_cases ha : isWs a = true
      · rw [if_pos ha]
        rfl
      · rw [if_neg ha]
        rw [trimEndWs_cons_eq]
        simp only [trimEndWs]
        rw [if_neg ha]
    | cons d r2 =>
      have h2 : trimEndWs (d :: r2) = d :: r2 := by
        rw [← he]
        exact ih
      calc trimEndWs (a :: d :: r2)
          = (match trimEndWs (d :: r2) with
              | [] => if isWs a = true then [] else [a]
              | r => a :: r) := trimEndWs_cons_eq a (d :: r2)
        _ = a :: d :: r2 := by rw [h2]

theorem dropWhile_fix_trimEnd {l : List Char} (h : List.dropWhile isWs l = l) :
    List.dropWhile isWs (trimEndWs l) = trimEndWs l := by
  cases l with
  | nil => rfl
  | cons a rest =>
    have ha : isWs a = false := dropWhile_fix_head h a rfl
    simp only [trimEndWs]
    cases he : trimEndWs rest with
    | nil =>
      rw [ha]
      simp only [Bool.false_eq_true, if_false]
      rw [List.dropWhile_cons_of_neg (by simp [ha])]
    | cons d r2 =>
      rw [List.dropWhile_cons_of_neg (by simp [ha])]

theorem pyStrip_start_fix (l : List Char) :
    List.dropWhile isWs (pyStrip l) = pyStrip l :=
  dropWhile_fix_trimEnd (dropWhile_ws_idem l)

theorem pyStrip_end_fix (l : List Char) : trimEndWs (pyStrip l) = pyStrip l :=
  trimEndWs_idem (trimStartWs l)

theorem pyStrip_of_fix {l : List Char} (h1 : List.dropWhile isWs l = l)
    (h2 : trimEndWs l = l) : pyStrip l = l := by
  unfold pyStrip trimStartWs
  rw [h1, h2]

theorem collapse_fix : ∀ (n : Nat) (l : List Char), l.length ≤ n →
    (∀ c ∈ l, isWs c = true → c = ' ') → noAdjWs l = true →
    (∀ d, l.head? = some d → isWs d = false) →
    ∀ b, collapseWsAux b l = l := by
  intro n
  induction n with
  | zero =>
    intro l hlen _ _ _ b
    cases l with
    | nil => rfl
    | cons a rest => simp at hlen
  | succ n ih =>
    intro l hlen hws hadj hhead b
    cases l with
    | nil => rfl
    | cons a rest =>
      have ha : isWs a = false := hhead a rfl
      simp only [collapseWsAux]
      rw [ha]
      simp only [Bool.false_eq_true, if_false]
      cases rest with
      | nil => rfl
      | cons d rest2 =>
        by_cases hd : isWs d = true
        · have hd' : d = ' ' := hws d (List.mem_cons_of_mem _ (List.mem_cons_self _ _)) hd
          subst hd'
          have hrest2 : collapseWsAux true rest2 = rest2 := by
            apply ih rest2 (by simp at hlen ⊢; omega)
            · intro c hc hcws
              exact hws c (List.mem_cons_of_mem _ (List.mem_cons_of_mem _ hc)) hcws
            · exact noAdjWs_tail (noAdjWs_tail hadj)
            · intro e he
              cases rest2 with
              | nil => cases he
              | cons e2 r3 =>
                have : e2 = e := Option.some.inj he
                subst this
                have hpair := noAdjWs_tail hadj
                simp only [noAdjWs, Bool.and_eq_true, Bool.not_eq_true'] at hpair
                have := hpair.1
                rw [hd] at this
                simpa using this
          have hstep : collapseWsAux false (' ' :: rest2) = ' ' :: collapseWsAux true rest2 :=
            rfl
          rw [hstep, hrest2]
        · have hrest : collapseWsAux false (d :: rest2) = d :: rest2 := by
            apply ih (d :: rest2) (by simp at hlen ⊢; omega)
            · intro c hc hcws
              exact hws c (List.mem_cons_of_mem _ hc) hcws
            · exact noAdjWs_tail hadj
            · intro e he
              have : d = e := Option.some.inj he
              subst this
              exact bool_eq_false hd
          rw [hrest]

theorem collapse_ws_space : ∀ (b : Bool) (l : List Char) (c : Char),
    c ∈ collapseWsAux b l → isWs c = true → c = ' ' := by
  intro b l
  induction l generalizing b with
  | nil => intro c h; cases h
  | cons a rest ih =>
    intro c h hws
    simp only [collapseWsAux] at h
    by_cases ha : isWs a = true
    · rw [if_pos ha] at h
      by_cases hb : b = true
      · rw [if_pos hb] at h
        exact ih true c h hws
      · rw [if_neg hb] at h
        rcases List.mem_cons.1 h with rfl | h2
        · rfl
        · exact ih true c h2 hws
    · rw [if_neg ha] at h
      rcases List.mem_cons.1 h with rfl | h2
      · exact absurd hws ha
      · exact ih false c h2 hws

theorem normStr_empty : normStr "" = "" := rfl

theorem normStr_data {x : String} (hx : ¬ x = "") :
    (normStr x).data =
      pyStrip (collapseWsAux false (parenCut (removePunct (saintSub
        (stripSuffixes (pyStrip (x.data.map Char.toUpper))))))) := by
  simp only [normStr, normalize_hs_name]
  rw [if_neg hx]
  rfl

theorem normStr_upper_fix (x : String) :
    ∀ c ∈ (normStr x).data, Char.toUpper c = c := by
  by_cases hx : x = ""
  · subst hx
    intro c hc
    have hnil : (normStr "").data = [] := rfl
    rw [hnil] at hc
    cases hc
  · intro c hc
    rw [normStr_data hx] at hc
    have h1 := mem_pyStrip hc
    rcases mem_collapseWsAux _ _ _ h1 with rfl | h2
    · decide
    have h3 := mem_parenCut h2
    have h4 := (mem_removePunct h3).1
    rcases mem_saintSub h4 with h5 | h5
    · have h6 := mem_stripSuffixes h5
      have h7 := mem_pyStrip h6
      obtain ⟨d, _, rfl⟩ := List.mem_map.1 h7
      exact toUpper_toUpper d
    · simp only [List.mem_cons, List.not_mem_nil, or_false] at h5
      rcases h5 with rfl | rfl | rfl | rfl | rfl | rfl <;> decide

theorem normStr_keepPunct (x : String) :
    ∀ c ∈ (normStr x).data, keepPunct c = true := by
  by_cases hx : x = ""
  · subst hx
    intro c hc
    have hnil : (normStr "").data = [] := rfl
    rw [hnil] at hc
    cases hc
  · intro c hc
    rw [normStr_data hx] at hc
    have h1 := mem_pyStrip hc
    rcases mem_collapseWsAux _ _ _ h1 with rfl | h2
    · decide
    have h3 := mem_parenCut h2
    exact (mem_removePunct h3).2

theorem normStr_ws_space (x : String) :
    ∀ c ∈ (normStr x).data, isWs c = true → c = ' ' := by
  by_cases hx : x = ""
  · subst hx
    intro c hc
    have hnil : (normStr "").data = [] := rfl
    rw [hnil] at hc
    cases hc
  · intro c hc hws
    rw [normStr_data hx] at hc
    exact collapse_ws_space false _ c (mem_pyStrip hc) hws

theorem normStr_noAdj (x : String) : noAdjWs (normStr x).data = true := by
  by_cases hx : x = ""
  · subst hx
    rfl
  · rw [normStr_data hx]
    exact noAdj_pyStrip (noAdj_collapse _ _)

theorem normStr_trimStart (x : String) :
    List.dropWhile isWs (normStr x).data = (normStr x).data := by
  by_cases hx : x = ""
  · subst hx
    rfl
  · rw [normStr_data hx]
    exact pyStrip_start_fix _

theorem normStr_trimEnd (x : String) :
    trimEndWs (normStr x).data = (normStr x).data := by
  by_cases hx : x = ""
  · subst hx
    rfl
  · rw [normStr_data hx]
    exact pyStrip_end_fix _

/-- C1: [corrected] `normalize` is deterministic but NOT idempotent in
general.  Idempotence holds exactly on the inputs where the suffix-strip,
St./Saint and trailing-parenthetical stages leave `normalize(x)` unchanged:
under those three hypotheses a second full pass is the identity (the
uppercase/strip, punctuation and whitespace-collapse stages always fix a
normalized string).  In general a second pass can strip further — the
first pass can expose a new trailing suffix. -/
theorem C1_conditional_idempotence (x : String)
    (h1 : stripSuffixesStr (normStr x) = normStr x)
    (h2 : saintSubStr (normStr x) = normStr x)
    (h3 : parenCutStr (normStr x) = normStr x) :
    normStr (normStr x) = normStr x := by
  by_cases hy : normStr x = ""
  · rw [hy]
    rfl
  · have hupper : upperStripStr (normStr x) = normStr x := by
      apply String.ext
      show pyStrip ((normStr x).data.map Char.toUpper) = (normStr x).data
      rw [map_toUpper_fix (normStr_upper_fix x)]
      exact pyStrip_of_fix (normStr_trimStart x) (normStr_trimEnd x)
    have hpunct : removePunctStr (normStr x) = normStr x := by
      apply String.ext
      show List.filter keepPunct (normStr x).data = (normStr x).data
      exact List.filter_eq_self.mpr (normStr_keepPunct x)
    have hcollapse : collapseStripStr (normStr x) = normStr x := by
      apply String.ext
      show pyStrip (collapseWsAux false (normStr x).data) = (normStr x).data
      rw [collapse_fix (normStr x).data.length (normStr x).data (le_refl _)
        (normStr_ws_space x) (normStr_noAdj x)
        (dropWhile_fix_head (normStr_trimStart x)) false]
      exact pyStrip_of_fix (normStr_trimStart x) (normStr_trimEnd x)
    show normalize_hs_name (some (normStr x)) = normStr x
    simp only [normalize_hs_name]
    rw [if_neg hy, hupper, h1, h2, hpunct, h3, hcollapse]

/-- C1 counterexample: `normalize("A HS HS") = "A HS"`, but normalizing
again strips the exposed `" HS"` suffix and yields `"A"`, so
`normalize(normalize(x)) ≠ normalize(x)` at `x = "A HS HS"`. -/
theorem C1_counterexample : normStr (normStr "A HS HS") ≠ normStr "A HS HS" := by
  decide

/-- C1 witness: on "Lincoln High School" the three stage hypotheses hold
and the theorem yields idempotence there. -/
theorem C1_witness :
    (stripSuffixesStr (normStr "Lincoln High School") = normStr "Lincoln High School" ∧
      saintSubStr (normStr "Lincoln High School") = normStr "Lincoln High School" ∧
      parenCutStr (normStr "Lincoln High School") = normStr "Lincoln High School") ∧
    normStr (normStr "Lincoln High School") = normStr "Lincoln High School" :=
  ⟨⟨by decide, by decide, by decide⟩,
    C1_conditional_idempotence "Lincoln High School" (by decide) (by decide) (by decide)⟩
